import Mathlib

/-!
Shallow embedding of the analysis pipeline of `feedback_app.py`
(Student Feedback Analysis Dashboard).

The program loads a tabular file into a pandas DataFrame, lets the user
select feedback-question columns, and then runs a pure data pipeline:
wide-to-long melt, response-to-category/sentiment mapping, dropping of
unrecognized responses, grouped counts and totals, percentage and
diverging-percentage computation, and label shortening with a
lexicographic sort of the shortened labels.

Cells are modelled as strings, percentages as exact rationals.
-/

namespace FeedbackApp

/-- A loaded table: named columns plus rows of string cells, as produced by
`pd.read_csv` / `pd.read_excel` (`df` in the program). -/
structure Table where
  cols : List String
  rows : List (List String)
deriving DecidableEq

/-- Data-model invariant of a loaded table: unique column names and
rectangular rows. -/
def Table.WF (t : Table) : Prop :=
  t.cols.Nodup ∧ ∀ r ∈ t.rows, r.length = t.cols.length

/-- The cell of a row at a named column (pandas column access by name). -/
def getCell (cols row : List String) (c : String) : String :=
  ((cols.zip row).lookup c).getD ""

/-- One tuple of the long (melted) frame: the id-column values, the melted
column's name (`Criterion`) and its cell value (`Response`). -/
structure MeltRow where
  idVals : List String
  criterion : String
  response : String
deriving DecidableEq

/-- The tuple the melt emits for one table row and one melted column: the
values of the non-selected (id) columns, `Criterion` = the column name and
`Response` = the cell value. -/
def meltTuple (t : Table) (feedback_cols : List String) (c : String)
    (r : List String) : MeltRow :=
  { idVals := ((t.cols.zip r).filter (fun p => !feedback_cols.contains p.1)).map Prod.snd
    criterion := c
    response := getCell t.cols r c }

/-- The melt restricted to a suffix `cs` of the selected columns (the full
selection still determines the id columns). -/
def meltAux (t : Table) (feedback_cols : List String) (cs : List String) :
    List MeltRow :=
  cs.flatMap (fun c => t.rows.map (meltTuple t feedback_cols c))

/-- `df.melt(id_vars=[c for c in df.columns if c not in feedback_cols],
value_vars=feedback_cols, var_name='Criterion', value_name='Response')`:
for each selected column (in selection order) and each table row, one
tuple carrying the non-selected column values, the column name and the
cell value. -/
def melt (t : Table) (feedback_cols : List String) : List MeltRow :=
  meltAux t feedback_cols feedback_cols

/-- The fixed `response_to_category` dictionary of the program. -/
def response_to_category : List (String × String) :=
  [("Strongly Agree ✅", "Strongly Agree"),
   ("Agree ✋🏻", "Agree"),
   ("Disagree ⚠️", "Disagree"),
   ("Strongly Disagree ⛔️", "Strongly Disagree")]

/-- The fixed `response_to_sentiment` dictionary of the program. -/
def response_to_sentiment : List (String × String) :=
  [("Strongly Agree ✅", "Positive"),
   ("Agree ✋🏻", "Positive"),
   ("Disagree ⚠️", "Negative"),
   ("Strongly Disagree ⛔️", "Negative")]

/-- A response value is recognized when it is a key of the category map. -/
def recognized (v : String) : Bool :=
  (response_to_category.lookup v).isSome

/-- A row of `df_long` after the two `.map` calls and
`dropna(subset=['Response Category', 'Sentiment'])`. -/
structure LongRow where
  idVals : List String
  criterion : String
  response : String
  category : String
  sentiment : String
deriving DecidableEq

/-- One melted tuple after the two `.map` calls, or `none` when `dropna`
removes it because a lookup missed. -/
def categorizeRow (m : MeltRow) : Option LongRow :=
  match response_to_category.lookup m.response,
        response_to_sentiment.lookup m.response with
  | some cat, some sen =>
      some { idVals := m.idVals, criterion := m.criterion,
             response := m.response, category := cat, sentiment := sen }
  | _, _ => none

/-- Mapping responses through both dictionaries and dropping the rows where
either lookup misses (`dropna`). -/
def categorize (ms : List MeltRow) : List LongRow :=
  ms.filterMap categorizeRow

/-- The grouping key of `groupby(['Criterion', 'Response Category',
'Sentiment'])`. -/
def keyOf (r : LongRow) : String × String × String :=
  (r.criterion, r.category, r.sentiment)

/-- Lexicographic comparison of grouping keys, the order in which pandas
`groupby` emits its groups. -/
def keyLe (a b : String × String × String) : Bool :=
  decide (a.1 < b.1) ||
    (decide (a.1 = b.1) &&
      (decide (a.2.1 < b.2.1) ||
        (decide (a.2.1 = b.2.1) && decide (a.2.2 ≤ b.2.2))))

/-- The size of one `groupby(['Criterion', 'Response Category', 'Sentiment'])`
group: the `Count` column of `df_counts`. -/
def countKey (l : List LongRow) (k : String × String × String) : Nat :=
  (l.filter (fun r => decide (keyOf r = k))).length

/-- The size of one `groupby('Criterion')` group: the `Total` column of
`df_totals`. -/
def totalCrit (l : List LongRow) (c : String) : Nat :=
  (l.filter (fun r => decide (r.criterion = c))).length

/-- The distinct grouping keys present in the long frame, in the sorted
order pandas `groupby` produces. -/
def groupKeys (l : List LongRow) : List (String × String × String) :=
  ((l.map keyOf).dedup).mergeSort keyLe

/-- Shortened display label of the selected column at 0-based index `i`:
`f"{i+1}. {col_name[:60]}..." if len(col_name) > 60 else f"{i+1}. {col_name}"`. -/
def shortLabel (i : Nat) (col_name : String) : String :=
  if col_name.length > 60 then
    Nat.repr (i + 1) ++ ". " ++ col_name.take 60 ++ "..."
  else
    Nat.repr (i + 1) ++ ". " ++ col_name

/-- The `criterion_short_map` dictionary: each selected column name mapped to
its shortened label, enumerated in selection order. -/
def criterion_short_map (feedback_cols : List String) : List (String × String) :=
  feedback_cols.enum.map (fun p => (p.2, shortLabel p.1 p.2))

/-- Boolean string comparison used for Python's `sorted` on strings
(lexicographic by code point). -/
def strLe (a b : String) : Bool :=
  decide (a ≤ b)

/-- One row of the final `df_perc` dataset handed to the chart. -/
structure PercRow where
  criterion : String
  category : String
  sentiment : String
  count : Nat
  total : Nat
  percentage : ℚ
  divergingPercentage : ℚ
deriving DecidableEq

/-- The two error kinds of the workflow; aggregation itself can only fail
with `SelectionError` (empty selection). -/
inductive AggError where
  | SelectionError
deriving DecidableEq

/-- The aggregation output: original row count (`total_responses`), the
`df_perc` rows, and `sorted_criteria`. -/
structure AggregateResult where
  totalResponseCount : Nat
  rows : List PercRow
  sortedCriteria : List String
deriving DecidableEq

/-- The shortened label a criterion is replaced by:
`df_perc['Criterion'].map(criterion_short_map)`. The lookup always succeeds
because every `Criterion` value is a selected column name; `getD` only
names a default for the dead branch. -/
def labelOf (feedback_cols : List String) (c : String) : String :=
  ((criterion_short_map feedback_cols).lookup c).getD c

/-- The `df_perc` row built for one grouping key: `Count`, the merged
`Total`, `Percentage = Count / Total`, the diverging percentage
(`Percentage * -1` when the sentiment is `Negative`) and the shortened
criterion label. -/
def mkPercRow (feedback_cols : List String) (df_long : List LongRow)
    (k : String × String × String) : PercRow :=
  let count := countKey df_long k
  let total := totalCrit df_long k.1
  let percentage : ℚ := (count : ℚ) / (total : ℚ)
  { criterion := labelOf feedback_cols k.1
    category := k.2.1
    sentiment := k.2.2
    count := count
    total := total
    percentage := percentage
    divergingPercentage :=
      if k.2.2 = "Negative" then -percentage else percentage }

/-- The final `df_perc` dataset: one row per group of
`groupby(['Criterion', 'Response Category', 'Sentiment'])`. -/
def df_perc (t : Table) (feedback_cols : List String) : List PercRow :=
  (groupKeys (categorize (melt t feedback_cols))).map
    (mkPercRow feedback_cols (categorize (melt t feedback_cols)))

/-- `sorted_criteria = sorted(criterion_short_map.values())`. -/
def sorted_criteria (feedback_cols : List String) : List String :=
  ((criterion_short_map feedback_cols).map Prod.snd).mergeSort strLe

/-- The analysis block of `feedback_app.py` (lines 79-142): the emptiness
check on the selection, melt, categorize + dropna, grouped counts and
totals, percentage, diverging percentage, label shortening and the sort of
the shortened labels. -/
def aggregate (t : Table) (feedback_cols : List String) :
    Except AggError AggregateResult :=
  if feedback_cols.isEmpty then
    .error .SelectionError
  else
    .ok { totalResponseCount := t.rows.length
          rows := df_perc t feedback_cols
          sortedCriteria := sorted_criteria feedback_cols }

/-! ### Basic facts about the melt -/

theorem meltTuple_criterion (t : Table) (fc : List String) (c : String)
    (r : List String) : (meltTuple t fc c r).criterion = c := rfl

theorem meltAux_cons (t : Table) (fc : List String) (c : String)
    (cs : List String) :
    meltAux t fc (c :: cs) = t.rows.map (meltTuple t fc c) ++ meltAux t fc cs := by
  simp [meltAux]

theorem mem_meltAux {t : Table} {fc cs : List String} {m : MeltRow}
    (h : m ∈ meltAux t fc cs) :
    ∃ c ∈ cs, ∃ r ∈ t.rows, m = meltTuple t fc c r := by
  rcases List.mem_flatMap.mp h with ⟨c, hc, hm⟩
  rcases List.mem_map.mp hm with ⟨r, hr, rfl⟩
  exact ⟨c, hc, r, hr, rfl⟩

theorem mem_meltAux_criterion {t : Table} {fc cs : List String} {m : MeltRow}
    (h : m ∈ meltAux t fc cs) : m.criterion ∈ cs := by
  rcases mem_meltAux h with ⟨c, hc, r, _, rfl⟩
  exact hc

theorem mem_melt_criterion {t : Table} {fc : List String} {m : MeltRow}
    (h : m ∈ melt t fc) : m.criterion ∈ fc :=
  mem_meltAux_criterion h

theorem filter_block_criterion (t : Table) (fc : List String) (c c' : String) :
    (t.rows.map (meltTuple t fc c)).filter (fun m => decide (m.criterion = c'))
      = if c = c' then t.rows.map (meltTuple t fc c) else [] := by
  rw [List.filter_map]
  have hcomp : ((fun m => decide (m.criterion = c')) ∘ meltTuple t fc c)
      = fun _ => decide (c = c') := rfl
  rw [hcomp]
  by_cases h : c = c' <;> simp [h]

/-- With a duplicate-free selection, each criterion owns at most one melted
block, so at most one tuple per original table row. -/
theorem length_filter_meltAux_le (t : Table) (fc : List String)
    (cs : List String) (hnd : cs.Nodup) (c : String) :
    ((meltAux t fc cs).filter (fun m => decide (m.criterion = c))).length
      ≤ t.rows.length := by
  induction cs with
  | nil => simp [meltAux]
  | cons c' cs ih =>
    rw [List.nodup_cons] at hnd
    rw [meltAux_cons, List.filter_append, List.length_append]
    rcases eq_or_ne c' c with rfl | hne
    · have h1 : ((t.rows.map (meltTuple t fc c')).filter
          (fun m => decide (m.criterion = c'))).length = t.rows.length := by
        rw [filter_block_criterion]; simp
      have h2 : (meltAux t fc cs).filter (fun m => decide (m.criterion = c')) = [] := by
        rw [List.filter_eq_nil_iff]
        intro m hm hdec
        have hmem := mem_meltAux_criterion hm
        rw [of_decide_eq_true hdec] at hmem
        exact hnd.1 hmem
      rw [h1, h2]
      simp
    · have h1 : (t.rows.map (meltTuple t fc c')).filter
          (fun m => decide (m.criterion = c)) = [] := by
        rw [filter_block_criterion]; simp [hne]
      rw [h1]
      simpa using ih hnd.2

/-! ### Basic facts about categorization -/

theorem sentiment_lookup_isSome (v : String) :
    (response_to_sentiment.lookup v).isSome
      = (response_to_category.lookup v).isSome := by
  simp only [response_to_category, response_to_sentiment, List.lookup]
  cases v == "Strongly Agree ✅" <;> cases v == "Agree ✋🏻" <;>
    cases v == "Disagree ⚠️" <;> cases v == "Strongly Disagree ⛔️" <;> rfl

theorem categorizeRow_eq_none {m : MeltRow} (h : recognized m.response = false) :
    categorizeRow m = none := by
  simp only [recognized] at h
  cases hc : response_to_category.lookup m.response with
  | some cat => rw [hc] at h; simp at h
  | none =>
      have hs := sentiment_lookup_isSome m.response
      rw [hc] at hs
      cases hsl : response_to_sentiment.lookup m.response with
      | some sen => rw [hsl] at hs; simp at hs
      | none => simp only [categorizeRow, hc, hsl]

theorem categorizeRow_of_recognized {m : MeltRow}
    (h : recognized m.response = true) :
    ∃ cat sen, response_to_category.lookup m.response = some cat ∧
      response_to_sentiment.lookup m.response = some sen ∧
      categorizeRow m = some { idVals := m.idVals, criterion := m.criterion,
                               response := m.response, category := cat,
                               sentiment := sen } := by
  simp only [recognized] at h
  cases hc : response_to_category.lookup m.response with
  | none => rw [hc] at h; simp at h
  | some cat =>
      have hs := sentiment_lookup_isSome m.response
      rw [hc] at hs
      cases hsl : response_to_sentiment.lookup m.response with
      | none => rw [hsl] at hs; simp at hs
      | some sen => exact ⟨cat, sen, rfl, rfl, by simp only [categorizeRow, hc, hsl]⟩

theorem mem_categorize {ms : List MeltRow} {r : LongRow}
    (h : r ∈ categorize ms) :
    ∃ m ∈ ms, m.criterion = r.criterion ∧ m.response = r.response ∧
      recognized m.response = true := by
  rcases List.mem_filterMap.mp h with ⟨m, hm, hrow⟩
  cases hrec : recognized m.response with
  | false => rw [categorizeRow_eq_none hrec] at hrow; exact absurd hrow (by simp)
  | true =>
      rcases categorizeRow_of_recognized hrec with ⟨cat, sen, _, _, heq⟩
      rw [heq] at hrow
      injection hrow with hrow
      exact ⟨m, hm, by rw [← hrow], by rw [← hrow], hrec⟩

theorem sentiment_of_mem_categorize {ms : List MeltRow} {r : LongRow}
    (h : r ∈ categorize ms) :
    r.sentiment = "Positive" ∨ r.sentiment = "Negative" := by
  rcases List.mem_filterMap.mp h with ⟨m, _, hrow⟩
  cases hrec : recognized m.response with
  | false => rw [categorizeRow_eq_none hrec] at hrow; exact absurd hrow (by simp)
  | true =>
      rcases categorizeRow_of_recognized hrec with ⟨cat, sen, _, hs, heq⟩
      rw [heq] at hrow
      injection hrow with hrow
      have hrs : r.sentiment = sen := by rw [← hrow]
      rw [hrs]
      revert hs
      simp only [response_to_sentiment, List.lookup]
      cases m.response == "Strongly Agree ✅" <;> cases m.response == "Agree ✋🏻" <;>
        cases m.response == "Disagree ⚠️" <;> cases m.response == "Strongly Disagree ⛔️" <;>
        intro hs <;> simp_all

theorem category_of_mem_categorize {ms : List MeltRow} {r : LongRow}
    (h : r ∈ categorize ms) :
    r.category ∈ ["Strongly Agree", "Agree", "Disagree", "Strongly Disagree"] := by
  rcases List.mem_filterMap.mp h with ⟨m, _, hrow⟩
  cases hrec : recognized m.response with
  | false => rw [categorizeRow_eq_none hrec] at hrow; exact absurd hrow (by simp)
  | true =>
      rcases categorizeRow_of_recognized hrec with ⟨cat, sen, hc, _, heq⟩
      rw [heq] at hrow
      injection hrow with hrow
      have hrc : r.category = cat := by rw [← hrow]
      rw [hrc]
      revert hc
      simp only [response_to_category, List.lookup]
      cases m.response == "Strongly Agree ✅" <;> cases m.response == "Agree ✋🏻" <;>
        cases m.response == "Disagree ⚠️" <;> cases m.response == "Strongly Disagree ⛔️" <;>
        intro hc <;> simp_all

theorem categorize_cons (m : MeltRow) (ms : List MeltRow) :
    categorize (m :: ms) =
      match categorizeRow m with
      | some r => r :: categorize ms
      | none => categorize ms := by
  simp only [categorize, List.filterMap_cons]
  cases categorizeRow m <;> rfl

/-- Dropping the unrecognized responses first does not change the
categorized frame: the `dropna` is exactly a silent filter. -/
theorem categorize_filter_recognized (ms : List MeltRow) :
    categorize ms = categorize (ms.filter (fun m => recognized m.response)) := by
  induction ms with
  | nil => rfl
  | cons m ms ih =>
      cases h : recognized m.response with
      | false =>
          rw [categorize_cons, categorizeRow_eq_none h]
          simp only [List.filter_cons, h]
          exact ih
      | true =>
          rcases categorizeRow_of_recognized h with ⟨cat, sen, _, _, heq⟩
          simp only [List.filter_cons, h, if_true]
          rw [categorize_cons, heq, categorize_cons, heq, ih]

/-- The per-criterion total counts exactly the melted tuples whose response
is recognized: unrecognized responses contribute to no total. -/
theorem totalCrit_categorize (ms : List MeltRow) (c : String) :
    totalCrit (categorize ms) c =
      (ms.filter (fun m => recognized m.response && decide (m.criterion = c))).length := by
  induction ms with
  | nil => rfl
  | cons m ms ih =>
      cases h : recognized m.response with
      | false =>
          rw [categorize_cons, categorizeRow_eq_none h]
          simp only [List.filter_cons, h, Bool.false_and]
          simpa using ih
      | true =>
          rcases categorizeRow_of_recognized h with ⟨cat, sen, _, _, heq⟩
          rw [categorize_cons, heq]
          have hstep : totalCrit ({ idVals := m.idVals, criterion := m.criterion,
                                    response := m.response, category := cat,
                                    sentiment := sen } :: categorize ms) c
              = (if m.criterion = c then 1 else 0) + totalCrit (categorize ms) c := by
            simp only [totalCrit, List.filter_cons]
            by_cases hcrit : m.criterion = c <;> simp [hcrit, Nat.add_comm]
          rw [hstep, ih, List.filter_cons]
          simp only [h, Bool.true_and]
          by_cases hcrit : m.criterion = c <;> simp [hcrit, Nat.add_comm]

/-! ### Facts about the grouping -/

theorem mem_groupKeys {l : List LongRow} {k : String × String × String} :
    k ∈ groupKeys l ↔ ∃ r ∈ l, keyOf r = k := by
  simp [groupKeys, List.mem_mergeSort, List.mem_dedup, List.mem_map]

theorem nodup_groupKeys (l : List LongRow) : (groupKeys l).Nodup :=
  (List.mergeSort_perm ((l.map keyOf).dedup) keyLe).symm.nodup
    (List.nodup_dedup (l.map keyOf))

theorem countKey_pos_of_mem_groupKeys {l : List LongRow}
    {k : String × String × String} (h : k ∈ groupKeys l) : 0 < countKey l k := by
  rcases mem_groupKeys.mp h with ⟨r, hr, rfl⟩
  have hmem : r ∈ l.filter (fun r' => decide (keyOf r' = keyOf r)) :=
    List.mem_filter.mpr ⟨hr, by simp⟩
  exact List.length_pos.mpr (List.ne_nil_of_mem hmem)

theorem countKey_le_totalCrit (l : List LongRow) (k : String × String × String) :
    countKey l k ≤ totalCrit l k.1 := by
  simp only [countKey, totalCrit, ← List.countP_eq_length_filter]
  apply List.countP_mono_left
  intro r _ h
  have hk : keyOf r = k := of_decide_eq_true h
  have : r.criterion = k.1 := by rw [← hk]; rfl
  exact decide_eq_true this

theorem criterion_eq_of_keyOf_eq {r : LongRow} {k : String × String × String}
    (h : keyOf r = k) : r.criterion = k.1 := by
  rw [← h]; rfl

/-- Counting each distinct key once accounts for every grouped row exactly
once: the partition property of `groupby`. -/
theorem sum_map_countKey (K : List (String × String × String)) (hnd : K.Nodup)
    (l : List LongRow) (hcov : ∀ r ∈ l, keyOf r ∈ K) :
    (K.map (countKey l)).sum = l.length := by
  induction K generalizing l with
  | nil =>
      have : l = [] :=
        List.eq_nil_iff_forall_not_mem.mpr (fun r hr => by simpa using hcov r hr)
      simp [this]
  | cons k K ih =>
      rw [List.nodup_cons] at hnd
      have hsplit :=
        @List.length_eq_length_filter_add _ l (fun r => decide (keyOf r = k))
      have hcov' : ∀ r ∈ l.filter (fun r => !decide (keyOf r = k)), keyOf r ∈ K := by
        intro r hr
        rcases List.mem_filter.mp hr with ⟨hrl, hneg⟩
        rcases List.mem_cons.mp (hcov r hrl) with heq | hK
        · rw [heq] at hneg; simp at hneg
        · exact hK
      have hcnt : ∀ k' ∈ K, countKey l k'
          = countKey (l.filter (fun r => !decide (keyOf r = k))) k' := by
        intro k' hk'
        have hne : k' ≠ k := fun h => hnd.1 (h ▸ hk')
        simp only [countKey, List.filter_filter]
        congr 1
        apply List.filter_congr
        intro r _
        by_cases h : keyOf r = k'
        · simp [h, hne]
        · simp [h]
      rw [List.map_cons, List.sum_cons, List.map_congr_left hcnt,
        ih hnd.2 _ hcov']
      simp only [countKey]
      omega

theorem sum_countKey_groupKeys_crit (l : List LongRow) (c : String) :
    (((groupKeys l).filter (fun k => decide (k.1 = c))).map (countKey l)).sum
      = totalCrit l c := by
  have hnd : ((groupKeys l).filter (fun k => decide (k.1 = c))).Nodup :=
    (nodup_groupKeys l).filter _
  have hcov : ∀ r ∈ l.filter (fun r => decide (r.criterion = c)),
      keyOf r ∈ (groupKeys l).filter (fun k => decide (k.1 = c)) := by
    intro r hr
    rcases List.mem_filter.mp hr with ⟨hrl, hc⟩
    exact List.mem_filter.mpr ⟨mem_groupKeys.mpr ⟨r, hrl, rfl⟩, hc⟩
  have hmain := sum_map_countKey _ hnd (l.filter (fun r => decide (r.criterion = c))) hcov
  have hcnt : ∀ k' ∈ (groupKeys l).filter (fun k => decide (k.1 = c)),
      countKey (l.filter (fun r => decide (r.criterion = c))) k' = countKey l k' := by
    intro k' hk'
    have hk'c : k'.1 = c := of_decide_eq_true (List.mem_filter.mp hk').2
    simp only [countKey, List.filter_filter]
    congr 1
    apply List.filter_congr
    intro r _
    by_cases h : keyOf r = k'
    · have : r.criterion = c := by rw [criterion_eq_of_keyOf_eq h, hk'c]
      simp [h, this]
    · simp [h]
  rw [List.map_congr_left hcnt] at hmain
  rw [hmain]
  rfl

/-! ### Decimal representations: digit-only characters and injectivity -/

/-- Numeric value of a decimal digit character. -/
def dval (c : Char) : Nat := c.toNat - 48

/-- Value of a decimal digit string, most significant digit first. -/
def digitsVal (l : List Char) : Nat := l.foldl (fun a c => 10 * a + dval c) 0

theorem digitsVal_foldl (l : List Char) :
    ∀ a : Nat, l.foldl (fun a c => 10 * a + dval c) a = a * 10 ^ l.length + digitsVal l := by
  induction l with
  | nil => intro a; simp [digitsVal]
  | cons c l ih =>
      intro a
      have h1 : (c :: l).foldl (fun a c => 10 * a + dval c) a
          = l.foldl (fun a c => 10 * a + dval c) (10 * a + dval c) := rfl
      have h2 : digitsVal (c :: l) = l.foldl (fun a c => 10 * a + dval c) (dval c) := by
        simp [digitsVal]
      rw [h1, ih, h2, ih]
      simp only [List.length_cons, pow_succ]
      ring

theorem dval_digitChar {m : Nat} (h : m < 10) : dval (Nat.digitChar m) = m := by
  interval_cases m <;> rfl

theorem isDigit_digitChar {m : Nat} (h : m < 10) : (Nat.digitChar m).isDigit = true := by
  interval_cases m <;> rfl

theorem toDigitsCore_val :
    ∀ (fuel n : Nat) (ds : List Char), n < fuel →
      digitsVal (Nat.toDigitsCore 10 fuel n ds) = n * 10 ^ ds.length + digitsVal ds := by
  intro fuel
  induction fuel with
  | zero => intro n ds h; omega
  | succ f ih =>
      intro n ds h
      rw [Nat.toDigitsCore]
      by_cases hdiv : n / 10 = 0
      · simp only [hdiv, if_true]
        have hmod : n % 10 = n := by omega
        have hlen : digitsVal (Nat.digitChar (n % 10) :: ds)
            = dval (Nat.digitChar (n % 10)) * 10 ^ ds.length + digitsVal ds := by
          have := digitsVal_foldl ds (dval (Nat.digitChar (n % 10)))
          simpa [digitsVal] using this
        rw [hlen, dval_digitChar (Nat.mod_lt _ (by norm_num)), hmod]
      · simp only [hdiv, if_false]
        have hn0 : n ≠ 0 := fun h0 => hdiv (by simp [h0])
        have hlt : n / 10 < f := by
          have := Nat.div_lt_self (Nat.pos_of_ne_zero hn0) (by norm_num : (1:Nat) < 10)
          omega
        rw [ih (n / 10) (Nat.digitChar (n % 10) :: ds) hlt]
        have hlen : digitsVal (Nat.digitChar (n % 10) :: ds)
            = dval (Nat.digitChar (n % 10)) * 10 ^ ds.length + digitsVal ds := by
          have := digitsVal_foldl ds (dval (Nat.digitChar (n % 10)))
          simpa [digitsVal] using this
        rw [hlen, dval_digitChar (Nat.mod_lt _ (by norm_num))]
        have hnm := Nat.div_add_mod n 10
        have hpow : (10:Nat) ^ (Nat.digitChar (n % 10) :: ds).length
            = 10 ^ ds.length * 10 := by
          simp [pow_succ]
        rw [hpow]
        conv_rhs => rw [← hnm]
        ring

theorem digitsVal_toDigits (n : Nat) : digitsVal (Nat.toDigits 10 n) = n := by
  have := toDigitsCore_val (n + 1) n [] (Nat.lt_succ_self n)
  simpa [Nat.toDigits, digitsVal] using this

theorem toDigitsCore_isDigit :
    ∀ (fuel n : Nat) (ds : List Char), (∀ c ∈ ds, c.isDigit = true) →
      ∀ c ∈ Nat.toDigitsCore 10 fuel n ds, c.isDigit = true := by
  intro fuel
  induction fuel with
  | zero => intro n ds hds; simpa [Nat.toDigitsCore] using hds
  | succ f ih =>
      intro n ds hds c hc
      rw [Nat.toDigitsCore] at hc
      have hd : ∀ c' ∈ Nat.digitChar (n % 10) :: ds, c'.isDigit = true := by
        intro c' hc'
        rcases List.mem_cons.mp hc' with rfl | hmem
        · exact isDigit_digitChar (Nat.mod_lt _ (by norm_num))
        · exact hds c' hmem
      by_cases hdiv : n / 10 = 0
      · rw [if_pos hdiv] at hc
        exact hd c hc
      · rw [if_neg hdiv] at hc
        exact ih (n / 10) _ hd c hc

theorem repr_data_isDigit (n : Nat) :
    ∀ c ∈ (Nat.repr n).data, c.isDigit = true := by
  intro c hc
  have : (Nat.repr n).data = Nat.toDigits 10 n := rfl
  rw [this] at hc
  exact toDigitsCore_isDigit (n + 1) n [] (by simp) c hc

theorem repr_injective : Function.Injective Nat.repr := by
  intro m n h
  have hdata : (Nat.repr m).data = (Nat.repr n).data := by rw [h]
  have hm : (Nat.repr m).data = Nat.toDigits 10 m := rfl
  have hn : (Nat.repr n).data = Nat.toDigits 10 n := rfl
  have : Nat.toDigits 10 m = Nat.toDigits 10 n := by rw [← hm, ← hn, hdata]
  have := congrArg digitsVal this
  rwa [digitsVal_toDigits, digitsVal_toDigits] at this

/-- Splitting at a non-digit separator is unambiguous when both prefixes are
all digits. -/
theorem append_sep_inj :
    ∀ (as bs l l' : List Char), (∀ c ∈ as, c.isDigit = true) →
      (∀ c ∈ bs, c.isDigit = true) →
      as ++ '.' :: l = bs ++ '.' :: l' → as = bs ∧ l = l' := by
  intro as
  induction as with
  | nil =>
      intro bs l l' _ hbs h
      cases bs with
      | nil => simpa using h
      | cons b bs =>
          exfalso
          have hb : b = '.' := by
            have := congrArg (fun xs => List.head? xs) h
            simpa using this.symm
          have := hbs b (by simp)
          rw [hb] at this
          simp [Char.isDigit] at this
  | cons a as ih =>
      intro bs l l' has hbs h
      cases bs with
      | nil =>
          exfalso
          have ha : a = '.' := by
            have := congrArg (fun xs => List.head? xs) h
            simpa using this
          have := has a (by simp)
          rw [ha] at this
          simp [Char.isDigit] at this
      | cons b bs =>
          simp only [List.cons_append, List.cons.injEq] at h
          rcases h with ⟨rfl, htail⟩
          rcases ih bs l l' (fun c hc => has c (by simp [hc]))
            (fun c hc => hbs c (by simp [hc])) htail with ⟨rfl, rfl⟩
          exact ⟨rfl, rfl⟩

/-- Two strings that start with distinct decimal numbers followed by the
separator `". "` are distinct, whatever follows. -/
theorem repr_sep_append_inj {m n : Nat} {u v : String}
    (h : Nat.repr m ++ ". " ++ u = Nat.repr n ++ ". " ++ v) : m = n := by
  have hdata := congrArg String.data h
  simp only [String.data_append] at hdata
  have hdata' : (Nat.repr m).data ++ '.' :: (' ' :: u.data)
      = (Nat.repr n).data ++ '.' :: (' ' :: v.data) := by
    simpa [List.append_assoc] using hdata
  have := append_sep_inj _ _ _ _ (repr_data_isDigit m) (repr_data_isDigit n) hdata'
  exact repr_injective (String.ext this.1)

/-- Distinct selection positions produce distinct shortened labels: the
numeric prefixes differ. -/
theorem shortLabel_index_inj {i j : Nat} {x y : String}
    (h : shortLabel i x = shortLabel j y) : i = j := by
  have h' : ∃ u v, Nat.repr (i + 1) ++ ". " ++ u = Nat.repr (j + 1) ++ ". " ++ v := by
    simp only [shortLabel] at h
    by_cases hx : x.length > 60 <;> by_cases hy : y.length > 60 <;>
      simp only [hx, hy, if_true, if_false] at h
    · exact ⟨x.take 60 ++ "...", y.take 60 ++ "...", by
        simpa [String.append_assoc] using h⟩
    · exact ⟨x.take 60 ++ "...", y, by simpa [String.append_assoc] using h⟩
    · exact ⟨x, y.take 60 ++ "...", by simpa [String.append_assoc] using h⟩
    · exact ⟨x, y, h⟩
  rcases h' with ⟨u, v, huv⟩
  have := repr_sep_append_inj huv
  omega

/-! ### The short-label map -/

theorem lookup_enumFrom_shortLabel :
    ∀ (fc : List String), fc.Nodup → ∀ (n i : Nat) (h : i < fc.length),
      ((fc.enumFrom n).map (fun p => (p.2, shortLabel p.1 p.2))).lookup fc[i]
        = some (shortLabel (n + i) fc[i]) := by
  intro fc
  induction fc with
  | nil => intro _ n i h; simp at h
  | cons a fc ih =>
      intro hnd n i h
      rw [List.nodup_cons] at hnd
      cases i with
      | zero =>
          simp only [List.getElem_cons_zero]
          have : (a :: fc).enumFrom n = (n, a) :: fc.enumFrom (n + 1) := rfl
          rw [this, List.map_cons, List.lookup_cons]
          simp
      | succ i =>
          have hi : i < fc.length := by simpa using h
          simp only [List.getElem_cons_succ]
          have hne : (fc[i] == a) = false :=
            beq_eq_false_iff_ne.mpr (fun he => hnd.1 (he ▸ List.getElem_mem hi))
          have hstep : (a :: fc).enumFrom n = (n, a) :: fc.enumFrom (n + 1) := rfl
          rw [hstep, List.map_cons, List.lookup_cons]
          simp only [hne]
          rw [ih hnd.2 (n + 1) i hi]
          have heq : n + 1 + i = n + (i + 1) := by omega
          rw [heq]

theorem lookup_criterion_short_map {fc : List String} (hnd : fc.Nodup)
    {i : Nat} (h : i < fc.length) :
    (criterion_short_map fc).lookup fc[i] = some (shortLabel i fc[i]) := by
  have := lookup_enumFrom_shortLabel fc hnd 0 i h
  simpa [criterion_short_map, List.enum] using this

theorem labelOf_getElem {fc : List String} (hnd : fc.Nodup) {i : Nat}
    (h : i < fc.length) : labelOf fc fc[i] = shortLabel i fc[i] := by
  rw [labelOf, lookup_criterion_short_map hnd h, Option.getD_some]

/-- Distinct selected column names receive distinct shortened labels. -/
theorem labelOf_inj {fc : List String} (hnd : fc.Nodup) {a b : String}
    (ha : a ∈ fc) (hb : b ∈ fc) (hlab : labelOf fc a = labelOf fc b) : a = b := by
  rcases List.getElem_of_mem ha with ⟨i, hi, rfl⟩
  rcases List.getElem_of_mem hb with ⟨j, hj, rfl⟩
  rw [labelOf_getElem hnd hi, labelOf_getElem hnd hj] at hlab
  have hij : i = j := shortLabel_index_inj hlab
  subst hij
  rfl

/-! ### Unfolding the aggregation -/

theorem aggregate_eq_ok {t : Table} {fc : List String} (h : fc ≠ []) :
    aggregate t fc = .ok { totalResponseCount := t.rows.length
                           rows := df_perc t fc
                           sortedCriteria := sorted_criteria fc } := by
  have hne : fc.isEmpty = false := by
    cases fc with
    | nil => exact absurd rfl h
    | cons a fc => rfl
  simp [aggregate, hne]

theorem aggregate_ok_inv {t : Table} {fc : List String} {res : AggregateResult}
    (h : aggregate t fc = .ok res) :
    fc ≠ [] ∧ res = { totalResponseCount := t.rows.length
                      rows := df_perc t fc
                      sortedCriteria := sorted_criteria fc } := by
  cases hfc : fc.isEmpty with
  | true =>
      have : fc = [] := List.isEmpty_iff.mp hfc
      rw [aggregate, if_pos (by rw [hfc])] at h
      exact absurd h (by simp)
  | false =>
      have hne : fc ≠ [] := by
        intro hnil; rw [hnil] at hfc; simp at hfc
      rw [aggregate_eq_ok hne] at h
      injection h with h
      exact ⟨hne, h.symm⟩

theorem mkPercRow_criterion (fc : List String) (L : List LongRow)
    (k : String × String × String) :
    (mkPercRow fc L k).criterion = labelOf fc k.1 := rfl

theorem mkPercRow_category (fc : List String) (L : List LongRow)
    (k : String × String × String) : (mkPercRow fc L k).category = k.2.1 := rfl

theorem mkPercRow_sentiment (fc : List String) (L : List LongRow)
    (k : String × String × String) : (mkPercRow fc L k).sentiment = k.2.2 := rfl

theorem mkPercRow_count (fc : List String) (L : List LongRow)
    (k : String × String × String) : (mkPercRow fc L k).count = countKey L k := rfl

theorem mkPercRow_total (fc : List String) (L : List LongRow)
    (k : String × String × String) :
    (mkPercRow fc L k).total = totalCrit L k.1 := rfl

theorem mkPercRow_percentage (fc : List String) (L : List LongRow)
    (k : String × String × String) :
    (mkPercRow fc L k).percentage
      = (countKey L k : ℚ) / (totalCrit L k.1 : ℚ) := rfl

theorem mkPercRow_diverging (fc : List String) (L : List LongRow)
    (k : String × String × String) :
    (mkPercRow fc L k).divergingPercentage
      = if k.2.2 = "Negative" then -(mkPercRow fc L k).percentage
        else (mkPercRow fc L k).percentage := rfl

theorem mem_rows_of_ok {t : Table} {fc : List String} {res : AggregateResult}
    (h : aggregate t fc = .ok res) {r : PercRow} (hr : r ∈ res.rows) :
    ∃ k ∈ groupKeys (categorize (melt t fc)),
      r = mkPercRow fc (categorize (melt t fc)) k := by
  obtain ⟨_, rfl⟩ := aggregate_ok_inv h
  have hr' : r ∈ (groupKeys (categorize (melt t fc))).map
      (mkPercRow fc (categorize (melt t fc))) := hr
  rcases List.mem_map.mp hr' with ⟨k, hk, rfl⟩
  exact ⟨k, hk, rfl⟩

theorem crit_mem_fc_of_mem_groupKeys {t : Table} {fc : List String}
    {k : String × String × String}
    (hk : k ∈ groupKeys (categorize (melt t fc))) : k.1 ∈ fc := by
  rcases mem_groupKeys.mp hk with ⟨r, hr, rfl⟩
  rcases mem_categorize hr with ⟨m, hm, hcrit, _, _⟩
  have : m.criterion ∈ fc := mem_melt_criterion hm
  rwa [hcrit] at this

/-! ### String order facts -/

theorem strLe_trans (a b c : String) (h1 : strLe a b = true)
    (h2 : strLe b c = true) : strLe a c = true := by
  simp only [strLe, decide_eq_true_eq] at h1 h2 ⊢
  exact le_trans h1 h2

theorem strLe_total (a b : String) : (strLe a b || strLe b a) = true := by
  rcases le_total a b with h | h <;> simp [strLe, h]

theorem ten_lt_two_string (u v : String) : ("10. " ++ u : String) < "2. " ++ v := by
  rw [String.lt_iff_toList_lt]
  have h10 : ("10. " ++ u).toList = '1' :: '0' :: '.' :: ' ' :: u.toList := by
    simp [String.toList, String.data_append]
  have h2 : ("2. " ++ v).toList = '2' :: '.' :: ' ' :: v.toList := by
    simp [String.toList, String.data_append]
  rw [h10, h2]
  exact List.Lex.rel (by decide)

/-! ### Shape of the melt -/

theorem totalCrit_melt_le (t : Table) (fc : List String) (hnd : fc.Nodup)
    (c : String) : totalCrit (categorize (melt t fc)) c ≤ t.rows.length := by
  rw [totalCrit_categorize]
  have h1 : ((melt t fc).filter
        (fun m => recognized m.response && decide (m.criterion = c))).length
      ≤ ((melt t fc).filter (fun m => decide (m.criterion = c))).length := by
    simp only [← List.countP_eq_length_filter]
    apply List.countP_mono_left
    intro m _ h
    exact (Bool.and_eq_true _ _ |>.mp h).2
  exact le_trans h1 (length_filter_meltAux_le t fc fc hnd c)

theorem meltAux_length (t : Table) (fc : List String) (cs : List String) :
    (meltAux t fc cs).length = t.rows.length * cs.length := by
  induction cs with
  | nil => simp [meltAux]
  | cons c cs ih =>
      rw [meltAux_cons, List.length_append, List.length_map, ih,
        List.length_cons, Nat.mul_succ]
      omega

theorem meltAux_getElem? (t : Table) (fc : List String) :
    ∀ (cs : List String) (i j : Nat) (hi : i < cs.length)
      (hj : j < t.rows.length),
      (meltAux t fc cs)[i * t.rows.length + j]?
        = some (meltTuple t fc cs[i] t.rows[j]) := by
  intro cs
  induction cs with
  | nil => intro i j hi _; simp at hi
  | cons c cs ih =>
      intro i j hi hj
      rw [meltAux_cons]
      cases i with
      | zero =>
          rw [List.getElem?_append_left (by simpa using hj)]
          simp only [Nat.zero_mul, Nat.zero_add]
          rw [List.getElem?_map, List.getElem?_eq_getElem hj]
          rfl
      | succ i =>
          have hi' : i < cs.length := by simpa using hi
          have hlen : (t.rows.map (meltTuple t fc c)).length ≤ (i + 1) * t.rows.length + j := by
            rw [List.length_map, Nat.succ_mul]
            omega
          rw [List.getElem?_append_right hlen]
          have harith : (i + 1) * t.rows.length + j - (t.rows.map (meltTuple t fc c)).length
              = i * t.rows.length + j := by
            rw [List.length_map, Nat.succ_mul]
            omega
          rw [harith, ih i j hi' hj]
          rfl

theorem getCell_cons_hit (c : String) (cols : List String) (v : String)
    (row : List String) : getCell (c :: cols) (v :: row) c = v := by
  simp [getCell, List.zip_cons_cons, List.lookup_cons]

theorem getCell_cons_ne {c c' : String} (h : c' ≠ c) (cols row : List String)
    (v : String) : getCell (c :: cols) (v :: row) c' = getCell cols row c' := by
  simp [getCell, List.zip_cons_cons, List.lookup_cons, beq_eq_false_iff_ne.mpr h]

/-- With unique column names and rectangular rows, the id values carried by
a melted tuple are exactly the cells of the non-selected columns. -/
theorem idVals_eq (fcsel : List String) :
    ∀ (cols row : List String), cols.Nodup → row.length = cols.length →
      ((cols.zip row).filter (fun p => !fcsel.contains p.1)).map Prod.snd
        = (cols.filter (fun c => !fcsel.contains c)).map (fun c => getCell cols row c) := by
  intro cols
  induction cols with
  | nil => intro row _ _; simp
  | cons c cols ih =>
      intro row hnd hlen
      rw [List.nodup_cons] at hnd
      cases row with
      | nil => simp at hlen
      | cons v row =>
          have hlen' : row.length = cols.length := by simpa using hlen
          have hmap : (cols.filter (fun c' => !fcsel.contains c')).map
              (fun c' => getCell (c :: cols) (v :: row) c')
              = (cols.filter (fun c' => !fcsel.contains c')).map
                (fun c' => getCell cols row c') := by
            apply List.map_congr_left
            intro a ha
            have hamem : a ∈ cols := (List.mem_filter.mp ha).1
            have hane : a ≠ c := fun he => hnd.1 (he ▸ hamem)
            exact getCell_cons_ne hane cols row v
          rw [List.zip_cons_cons]
          cases hc : fcsel.contains c with
          | true =>
              simp only [List.filter_cons, hc, Bool.not_true]
              rw [if_neg (by simp), if_neg (by simp), ih row hnd.2 hlen']
              exact hmap.symm
          | false =>
              simp only [List.filter_cons, hc, Bool.not_false]
              rw [if_pos trivial, if_pos trivial, List.map_cons, List.map_cons,
                getCell_cons_hit, ih row hnd.2 hlen', hmap]

theorem meltTuple_idVals {t : Table} (hwf : t.WF) {fc : List String}
    (c : String) {r : List String} (hr : r ∈ t.rows) :
    (meltTuple t fc c r).idVals
      = (t.cols.filter (fun c' => !fc.contains c')).map
          (fun c' => getCell t.cols r c') := by
  have := idVals_eq fc t.cols r hwf.1 (hwf.2 r hr)
  simpa [meltTuple] using this

/-! ### Concrete tables used as witnesses -/

/-- The spec's worked example: three rows, one selected column `"Q"`. -/
def exampleTable : Table :=
  { cols := ["Q"]
    rows := [["Strongly Agree ✅"], ["Disagree ⚠️"], ["Strongly Agree ✅"]] }

/-- The output the spec's worked example demands (group keys in the sorted
order pandas emits: `Disagree` precedes `Strongly Agree`). -/
def exampleResult : AggregateResult :=
  { totalResponseCount := 3
    rows := [{ criterion := "1. Q", category := "Disagree",
               sentiment := "Negative", count := 1, total := 3,
               percentage := 1/3, divergingPercentage := -(1/3) },
             { criterion := "1. Q", category := "Strongly Agree",
               sentiment := "Positive", count := 2, total := 3,
               percentage := 2/3, divergingPercentage := 2/3 }]
    sortedCriteria := ["1. Q"] }

/-- The aggregation of the worked example evaluates exactly to
`exampleResult`. -/
theorem exampleTable_aggregate : aggregate exampleTable ["Q"] = .ok exampleResult := by
  rw [aggregate_eq_ok (by decide)]
  have hkeys : groupKeys (categorize (melt exampleTable ["Q"]))
      = [("Q", "Disagree", "Negative"), ("Q", "Strongly Agree", "Positive")] := by
    rw [groupKeys]
    rw [show ((categorize (melt exampleTable ["Q"])).map keyOf).dedup
        = [("Q", "Disagree", "Negative"), ("Q", "Strongly Agree", "Positive")] from rfl]
    have hDS : ("Disagree" : String) < "Strongly Agree" := by
      rw [String.lt_iff_toList_lt]
      exact List.Lex.rel (by decide)
    have hkeyle : keyLe ("Q", "Disagree", "Negative")
        ("Q", "Strongly Agree", "Positive") = true := by
      simp [keyLe, hDS]
    apply List.mergeSort_of_sorted
    exact List.Pairwise.cons
      (fun b hb => by rw [List.mem_singleton] at hb; subst hb; exact hkeyle)
      (List.pairwise_singleton _ _)
  have h1 : mkPercRow ["Q"] (categorize (melt exampleTable ["Q"]))
      ("Q", "Disagree", "Negative")
      = { criterion := "1. Q", category := "Disagree", sentiment := "Negative",
          count := 1, total := 3, percentage := 1/3,
          divergingPercentage := -(1/3) } := by
    simp only [mkPercRow]
    rw [show countKey (categorize (melt exampleTable ["Q"]))
        ("Q", "Disagree", "Negative") = 1 from rfl]
    rw [show totalCrit (categorize (melt exampleTable ["Q"])) "Q" = 3 from rfl]
    rw [show labelOf ["Q"] "Q" = "1. Q" from rfl]
    norm_num [PercRow.mk.injEq]
  have h2 : mkPercRow ["Q"] (categorize (melt exampleTable ["Q"]))
      ("Q", "Strongly Agree", "Positive")
      = { criterion := "1. Q", category := "Strongly Agree",
          sentiment := "Positive", count := 2, total := 3,
          percentage := 2/3, divergingPercentage := 2/3 } := by
    simp only [mkPercRow]
    rw [show countKey (categorize (melt exampleTable ["Q"]))
        ("Q", "Strongly Agree", "Positive") = 2 from rfl]
    rw [show totalCrit (categorize (melt exampleTable ["Q"])) "Q" = 3 from rfl]
    rw [show labelOf ["Q"] "Q" = "1. Q" from rfl]
    norm_num [PercRow.mk.injEq]
    decide
  have hsorted : sorted_criteria ["Q"] = ["1. Q"] := by
    rw [sorted_criteria,
      show (criterion_short_map ["Q"]).map Prod.snd = ["1. Q"] from rfl]
    exact List.mergeSort_of_sorted (by decide)
  have hdf : df_perc exampleTable ["Q"] = exampleResult.rows := by
    rw [df_perc, hkeys, List.map_cons, List.map_cons, List.map_nil, h1, h2]
    rfl
  rw [hdf, hsorted]
  rfl

/-! ### The claims -/

/-- C4: for every loaded table, aggregation with an empty selection fails
with `SelectionError` immediately, regardless of the table's contents. -/
theorem claim_C4_empty_selection_fails (t : Table) :
    aggregate t [] = .error .SelectionError := rfl

/-- C3: aggregation has exactly two outcomes: for an empty selection it
fails with `SelectionError`, for a non-empty selection it succeeds with an
`AggregateResult`; any error it ever returns is `SelectionError` on an
empty selection. -/
theorem claim_C3_two_outcomes (t : Table) (fc : List String) :
    (fc = [] → aggregate t fc = .error .SelectionError) ∧
    (fc ≠ [] → ∃ res, aggregate t fc = .ok res) ∧
    (∀ e, aggregate t fc = .error e → e = .SelectionError ∧ fc = []) := by
  refine ⟨?_, ?_, ?_⟩
  · rintro rfl; rfl
  · intro h; exact ⟨_, aggregate_eq_ok h⟩
  · intro e he
    cases e
    refine ⟨rfl, ?_⟩
    by_contra hne
    rw [aggregate_eq_ok hne] at he
    exact absurd he (by simp)

theorem claim_C3_witness :
    ∃ res, aggregate exampleTable ["Q"] = .ok res :=
  (claim_C3_two_outcomes exampleTable ["Q"]).2.1 (by decide)

/-- C2: every output row's percentage lies in `(0, 1]`, its sentiment is
`Positive` or `Negative`, the diverging percentage is the percentage for
positive sentiment and its negation for negative sentiment (hence lies in
`[-1, 1]`); and the spec's 3-row worked example produces exactly the
expected totals, counts and percentages. -/
theorem claim_C2_percentage_and_diverging :
    (∀ (t : Table) (fc : List String) (res : AggregateResult),
        aggregate t fc = .ok res → ∀ r ∈ res.rows,
          (0 < r.percentage ∧ r.percentage ≤ 1) ∧
          (r.sentiment = "Positive" ∨ r.sentiment = "Negative") ∧
          (r.sentiment = "Positive" → r.divergingPercentage = r.percentage) ∧
          (r.sentiment = "Negative" → r.divergingPercentage = -r.percentage) ∧
          (-1 ≤ r.divergingPercentage ∧ r.divergingPercentage ≤ 1)) ∧
    aggregate exampleTable ["Q"] = .ok exampleResult := by
  constructor
  · intro t fc res hres r hr
    rcases mem_rows_of_ok hres hr with ⟨k, hk, rfl⟩
    set L := categorize (melt t fc) with hL
    have hcount : 0 < countKey L k := countKey_pos_of_mem_groupKeys hk
    have hle : countKey L k ≤ totalCrit L k.1 := countKey_le_totalCrit L k
    have htot : 0 < totalCrit L k.1 := lt_of_lt_of_le hcount hle
    have hppos : 0 < (mkPercRow fc L k).percentage := by
      rw [mkPercRow_percentage]
      exact div_pos (by exact_mod_cast hcount) (by exact_mod_cast htot)
    have hple : (mkPercRow fc L k).percentage ≤ 1 := by
      rw [mkPercRow_percentage, div_le_one (by exact_mod_cast htot)]
      exact_mod_cast hle
    have hsent : k.2.2 = "Positive" ∨ k.2.2 = "Negative" := by
      rcases mem_groupKeys.mp hk with ⟨row, hrow, hkey⟩
      have hsk : row.sentiment = k.2.2 := by rw [← hkey]; rfl
      have := sentiment_of_mem_categorize
        (show row ∈ categorize (melt t fc) from hrow)
      rwa [hsk] at this
    refine ⟨⟨hppos, hple⟩, ?_, ?_, ?_, ?_⟩
    · rw [mkPercRow_sentiment]; exact hsent
    · intro hp
      rw [mkPercRow_sentiment] at hp
      rw [mkPercRow_diverging, if_neg (by rw [hp]; decide)]
    · intro hn
      rw [mkPercRow_sentiment] at hn
      rw [mkPercRow_diverging, if_pos hn]
    · rw [mkPercRow_diverging]
      by_cases hneg : k.2.2 = "Negative"
      · rw [if_pos hneg]
        exact ⟨neg_le_neg hple, by linarith⟩
      · rw [if_neg hneg]
        exact ⟨by linarith, hple⟩
  · exact exampleTable_aggregate

theorem claim_C2_witness :
    (0 : ℚ) < 1/3 ∧ (1/3 : ℚ) ≤ 1 := by
  have h := (claim_C2_percentage_and_diverging).1 exampleTable ["Q"]
    exampleResult (claim_C2_percentage_and_diverging).2
    { criterion := "1. Q", category := "Disagree", sentiment := "Negative",
      count := 1, total := 3, percentage := 1/3,
      divergingPercentage := -(1/3) } (List.mem_cons_self _ _)
  exact h.1

/-- For each output row, the counts of the rows sharing its shortened label
sum to that criterion's total. -/
theorem df_perc_sum_eq (t : Table) (fc : List String) (hnd : fc.Nodup)
    {k : String × String × String}
    (hk : k ∈ groupKeys (categorize (melt t fc))) :
    (((df_perc t fc).filter (fun r' => decide (r'.criterion
          = (mkPercRow fc (categorize (melt t fc)) k).criterion))).map
        PercRow.count).sum
      = (mkPercRow fc (categorize (melt t fc)) k).total := by
  set L := categorize (melt t fc) with hL
  have h1 : (df_perc t fc).filter
        (fun r' => decide (r'.criterion = (mkPercRow fc L k).criterion))
      = ((groupKeys L).filter
          (fun k' => decide (labelOf fc k'.1 = labelOf fc k.1))).map
        (mkPercRow fc L) := by
    show ((groupKeys L).map (mkPercRow fc L)).filter _ = _
    rw [List.filter_map]
    rfl
  have h2 : (groupKeys L).filter
        (fun k' => decide (labelOf fc k'.1 = labelOf fc k.1))
      = (groupKeys L).filter (fun k' => decide (k'.1 = k.1)) := by
    apply List.filter_congr
    intro k' hk'
    apply decide_eq_decide.mpr
    constructor
    · intro h
      exact labelOf_inj hnd (crit_mem_fc_of_mem_groupKeys hk')
        (crit_mem_fc_of_mem_groupKeys hk) h
    · intro h; rw [h]
  rw [h1, h2, List.map_map]
  rw [show (PercRow.count ∘ mkPercRow fc L) = countKey L from rfl]
  rw [mkPercRow_total]
  exact sum_countKey_groupKeys_crit L k.1

/-- C1: in the output, the counts of the aggregate rows belonging to one
criterion sum to that criterion's total, and every total is at most the
original row count of the table. -/
theorem claim_C1_count_sums_and_total_bound (t : Table) (fc : List String)
    (hnd : fc.Nodup) (res : AggregateResult)
    (hres : aggregate t fc = .ok res) :
    ∀ r ∈ res.rows,
      ((res.rows.filter (fun r' => decide (r'.criterion = r.criterion))).map
          PercRow.count).sum = r.total ∧
      r.total ≤ res.totalResponseCount := by
  obtain ⟨hne, hreseq⟩ := aggregate_ok_inv hres
  subst hreseq
  intro r hr
  have hr' : r ∈ (groupKeys (categorize (melt t fc))).map
      (mkPercRow fc (categorize (melt t fc))) := hr
  rcases List.mem_map.mp hr' with ⟨k, hk, rfl⟩
  refine ⟨df_perc_sum_eq t fc hnd hk, ?_⟩
  rw [mkPercRow_total]
  exact totalCrit_melt_le t fc hnd k.1

theorem claim_C1_witness :
    ((exampleResult.rows.filter (fun r' => decide (r'.criterion
          = ({ criterion := "1. Q", category := "Disagree",
               sentiment := "Negative", count := 1, total := 3,
               percentage := 1/3,
               divergingPercentage := -(1/3) } : PercRow).criterion))).map
        PercRow.count).sum
      = ({ criterion := "1. Q", category := "Disagree",
           sentiment := "Negative", count := 1, total := 3,
           percentage := 1/3,
           divergingPercentage := -(1/3) } : PercRow).total ∧
    ({ criterion := "1. Q", category := "Disagree", sentiment := "Negative",
       count := 1, total := 3, percentage := 1/3,
       divergingPercentage := -(1/3) } : PercRow).total
      ≤ exampleResult.totalResponseCount :=
  claim_C1_count_sums_and_total_bound exampleTable ["Q"] (by decide)
    exampleResult exampleTable_aggregate _ (List.mem_cons_self _ _)

/-- C5: unrecognized response values (blanks included) are dropped
silently: the categorized frame equals the one computed from the
recognized tuples alone, every total counts exactly the recognized
responses of its criterion, the aggregation still succeeds, and every
output row carries one of the four recognized categories. -/
theorem claim_C5_unrecognized_dropped (t : Table) (fc : List String)
    (hne : fc ≠ []) :
    (∃ res, aggregate t fc = .ok res) ∧
    categorize (melt t fc)
      = categorize ((melt t fc).filter (fun m => recognized m.response)) ∧
    (∀ c, totalCrit (categorize (melt t fc)) c
        = ((melt t fc).filter
            (fun m => recognized m.response && decide (m.criterion = c))).length) ∧
    (∀ res, aggregate t fc = .ok res → ∀ r ∈ res.rows,
        r.category ∈ ["Strongly Agree", "Agree", "Disagree", "Strongly Disagree"]) := by
  refine ⟨⟨_, aggregate_eq_ok hne⟩, categorize_filter_recognized _,
    fun c => totalCrit_categorize _ c, ?_⟩
  intro res hres r hr
  rcases mem_rows_of_ok hres hr with ⟨k, hk, rfl⟩
  rw [mkPercRow_category]
  rcases mem_groupKeys.mp hk with ⟨row, hrow, hkey⟩
  have hcat : row.category = k.2.1 := by rw [← hkey]; rfl
  have := category_of_mem_categorize
    (show row ∈ categorize (melt t fc) from hrow)
  rwa [hcat] at this

/-- A table whose single question column holds one recognized response
among unrecognized ones. -/
def mixedTable : Table :=
  { cols := ["Q"], rows := [["N/A"], ["Strongly Agree ✅"], [""]] }

theorem claim_C5_witness : ∃ res, aggregate mixedTable ["Q"] = .ok res :=
  (claim_C5_unrecognized_dropped mixedTable ["Q"] (by decide)).1

/-- The label the spec describes: the 1-based position, a literal `.` and a
space, then the column name unchanged when its length is at most 60,
otherwise its first 60 characters followed by `"..."`. Stated from the
spec's words, to be compared with the program's `shortLabel`. -/
def specShortenedLabel (pos : Nat) (name : String) : String :=
  Nat.repr pos ++ ". "
    ++ (if name.length ≤ 60 then name else name.take 60 ++ "...")

theorem shortLabel_eq_spec (i : Nat) (name : String) :
    shortLabel i name = specShortenedLabel (i + 1) name := by
  rw [shortLabel, specShortenedLabel]
  by_cases h : name.length > 60
  · rw [if_pos h, if_neg (by omega), String.append_assoc]
  · rw [if_neg h, if_pos (by omega)]

theorem criterion_short_map_getElem? (fc : List String) {i : Nat}
    (h : i < fc.length) :
    (criterion_short_map fc)[i]? = some (fc[i], shortLabel i fc[i]) := by
  simp only [criterion_short_map]
  rw [List.getElem?_map, List.getElem?_enum, List.getElem?_eq_getElem h]
  rfl

/-- C6: the entry of the label map at 1-based position `i + 1` pairs the
column name with the spec's label: index, dot, space, then the name
truncated to 60 characters with a `"..."` marker exactly when it is longer
than 60 characters. -/
theorem claim_C6_label_shortening (fc : List String) (i : Nat)
    (h : i < fc.length) :
    (criterion_short_map fc)[i]?
      = some (fc[i], specShortenedLabel (i + 1) fc[i]) := by
  rw [criterion_short_map_getElem? fc h, shortLabel_eq_spec]

/-- A 70-character column name. -/
def name70 : String :=
  "aaaaaaaaaaaaaaaaaaaaaaaaaaaaaaaaaaaaaaaaaaaaaaaaaaaaaaaaaaaaaaaaaaaaaa"

set_option maxRecDepth 4000 in
theorem claim_C6_witness :
    (criterion_short_map [name70])[0]?
      = some (name70,
          "1. " ++ "aaaaaaaaaaaaaaaaaaaaaaaaaaaaaaaaaaaaaaaaaaaaaaaaaaaaaaaaaaaa"
            ++ "...") := by
  rw [claim_C6_label_shortening [name70] 0 (by decide)]
  rfl

theorem sorted_criteria_perm (fc : List String) :
    (sorted_criteria fc).Perm ((criterion_short_map fc).map Prod.snd) :=
  List.mergeSort_perm _ _

theorem sorted_criteria_pairwise (fc : List String) :
    List.Pairwise (fun a b : String => a ≤ b) (sorted_criteria fc) := by
  have h := @List.sorted_mergeSort String strLe strLe_trans strLe_total
    ((criterion_short_map fc).map Prod.snd)
  exact h.imp (fun hab => of_decide_eq_true hab)

/-- C7: label indices follow the selection order, while the displayed order
of the shortened labels is a lexicographic string sort of them, so a label
starting `"10. "` is placed before one starting `"2. "`. -/
theorem claim_C7_lexicographic_display_order (t : Table) (fc : List String)
    (res : AggregateResult) (hres : aggregate t fc = .ok res) :
    (∀ (i : Nat) (h : i < fc.length),
        (criterion_short_map fc)[i]? = some (fc[i], shortLabel i fc[i])) ∧
    res.sortedCriteria.Perm ((criterion_short_map fc).map Prod.snd) ∧
    List.Pairwise (fun a b : String => a ≤ b) res.sortedCriteria ∧
    (∀ (i j : Nat) (hi : i < res.sortedCriteria.length)
        (hj : j < res.sortedCriteria.length) (u v : String),
        res.sortedCriteria[i] = "10. " ++ u →
        res.sortedCriteria[j] = "2. " ++ v → i < j) := by
  obtain ⟨hne, rfl⟩ := aggregate_ok_inv hres
  refine ⟨fun i h => criterion_short_map_getElem? fc h,
    sorted_criteria_perm fc, sorted_criteria_pairwise fc, ?_⟩
  intro i j hi hj u v hu hv
  have hsorted := sorted_criteria_pairwise fc
  rw [List.pairwise_iff_get] at hsorted
  by_contra hij
  push_neg at hij
  rcases lt_or_eq_of_le hij with hlt | heq
  · have hle := hsorted ⟨j, hj⟩ ⟨i, hi⟩ hlt
    rw [List.get_eq_getElem, List.get_eq_getElem] at hle
    simp only at hle
    rw [hu, hv] at hle
    exact absurd (lt_of_le_of_lt hle (ten_lt_two_string u v)) (lt_irrefl _)
  · subst heq
    have h10 : ("10. " ++ u : String) = "2. " ++ v := hu.symm.trans hv
    have hlt := ten_lt_two_string u v
    rw [h10] at hlt
    exact lt_irrefl _ hlt

/-- Eleven selected single-character columns, so that both a `"2. "` and a
`"10. "` label arise. -/
def elevenCols : List String :=
  ["a", "b", "c", "d", "e", "f", "g", "h", "i", "j", "k"]

theorem claim_C7_witness :
    (criterion_short_map elevenCols)[1]? = some ("b", shortLabel 1 "b") := by
  have h := claim_C7_lexicographic_display_order ⟨elevenCols, []⟩ elevenCols
    { totalResponseCount := 0, rows := df_perc ⟨elevenCols, []⟩ elevenCols,
      sortedCriteria := sorted_criteria elevenCols }
    (aggregate_eq_ok (by decide))
  exact h.1 1 (by decide)

/-- C8: a selected column none of whose cells holds a recognized response
contributes no output row (no row carries its label), while the
aggregation still succeeds and every output row's total is positive, so no
division by zero occurs. -/
theorem claim_C8_all_unrecognized_column (t : Table) (fc : List String)
    (hnd : fc.Nodup) (c : String) (hc : c ∈ fc)
    (hall : ∀ row ∈ t.rows, recognized (getCell t.cols row c) = false) :
    ∃ res, aggregate t fc = .ok res ∧
      (∀ r ∈ res.rows, r.criterion ≠ labelOf fc c) ∧
      (∀ r ∈ res.rows, 0 < r.total) := by
  have hne : fc ≠ [] := List.ne_nil_of_mem hc
  refine ⟨_, aggregate_eq_ok hne, ?_, ?_⟩
  · intro r hr
    have hr' : r ∈ (groupKeys (categorize (melt t fc))).map
        (mkPercRow fc (categorize (melt t fc))) := hr
    rcases List.mem_map.mp hr' with ⟨k, hk, rfl⟩
    rw [mkPercRow_criterion]
    intro heq
    have hk1 : k.1 ∈ fc := crit_mem_fc_of_mem_groupKeys hk
    have hkc : k.1 = c := labelOf_inj hnd hk1 hc heq
    rcases mem_groupKeys.mp hk with ⟨row, hrow, hkey⟩
    rcases mem_categorize hrow with ⟨m, hm, hcrit, _, hrec⟩
    rcases mem_meltAux hm with ⟨c', _, rr, hrr, rfl⟩
    have hc'c : c' = c := by
      have h1 : (meltTuple t fc c' rr).criterion = row.criterion := hcrit
      have h2 : row.criterion = k.1 := by rw [← hkey]; rfl
      rw [meltTuple_criterion] at h1
      rw [h1, h2, hkc]
    have hresp : (meltTuple t fc c' rr).response = getCell t.cols rr c := by
      rw [hc'c]; rfl
    have := hall rr hrr
    rw [← hresp] at this
    rw [this] at hrec
    exact absurd hrec (by simp)
  · intro r hr
    have hr' : r ∈ (groupKeys (categorize (melt t fc))).map
        (mkPercRow fc (categorize (melt t fc))) := hr
    rcases List.mem_map.mp hr' with ⟨k, hk, rfl⟩
    rw [mkPercRow_total]
    exact lt_of_lt_of_le (countKey_pos_of_mem_groupKeys hk)
      (countKey_le_totalCrit _ _)

/-- A table whose column `"Q"` holds only `"N/A"` while column `"R"` holds
recognized responses. -/
def naTable : Table :=
  { cols := ["Q", "R"]
    rows := [["N/A", "Agree ✋🏻"], ["N/A", "Disagree ⚠️"]] }

theorem claim_C8_witness :
    ∃ res, aggregate naTable ["Q", "R"] = .ok res ∧
      (∀ r ∈ res.rows, r.criterion ≠ labelOf ["Q", "R"] "Q") ∧
      (∀ r ∈ res.rows, 0 < r.total) :=
  claim_C8_all_unrecognized_column naTable ["Q", "R"] (by decide) "Q"
    (by decide) (by decide)

/-- C9: the melt produces exactly (row count × selected count) tuples, the
tuple for the `i`-th selected column and `j`-th table row sitting at
offset `i * rowCount + j`, carrying the non-selected columns' cell values,
the column name as `Criterion` and the cell value as `Response`. -/
theorem claim_C9_melt_shape (t : Table) (fc : List String) (hwf : t.WF) :
    (melt t fc).length = t.rows.length * fc.length ∧
    ∀ (i j : Nat) (hi : i < fc.length) (hj : j < t.rows.length),
      (melt t fc)[i * t.rows.length + j]?
        = some { idVals := (t.cols.filter (fun c' => !fc.contains c')).map
                   (fun c' => getCell t.cols t.rows[j] c')
                 criterion := fc[i]
                 response := getCell t.cols t.rows[j] fc[i] } := by
  refine ⟨meltAux_length t fc fc, ?_⟩
  intro i j hi hj
  rw [show melt t fc = meltAux t fc fc from rfl,
    meltAux_getElem? t fc fc i j hi hj]
  have htup : meltTuple t fc fc[i] t.rows[j]
      = { idVals := (t.cols.filter (fun c' => !fc.contains c')).map
            (fun c' => getCell t.cols t.rows[j] c')
          criterion := fc[i]
          response := getCell t.cols t.rows[j] fc[i] } := by
    simp only [meltTuple, MeltRow.mk.injEq, and_true]
    exact idVals_eq fc t.cols t.rows[j] hwf.1 (hwf.2 _ (List.getElem_mem hj))
  rw [htup]

/-- A two-column, two-row table with one non-selected column. -/
def wfTable : Table :=
  { cols := ["A", "B"]
    rows := [["x", "Agree ✋🏻"], ["y", "Disagree ⚠️"]] }

theorem claim_C9_witness :
    (melt wfTable ["B"]).length = wfTable.rows.length * 1 ∧
    (melt wfTable ["B"])[0 * wfTable.rows.length + 1]?
      = some { idVals := ["y"], criterion := "B",
               response := "Disagree ⚠️" } := by
  have h := claim_C9_melt_shape wfTable ["B"] ⟨by decide, by decide⟩
  refine ⟨h.1, ?_⟩
  rw [h.2 0 1 (by decide) (by decide)]
  rfl

/-- C10: the label map is injective on a duplicate-free selection: distinct
selected column names always receive distinct labels, even when the names
share their first 60 characters. -/
theorem claim_C10_label_map_injective (fc : List String) (hnd : fc.Nodup)
    (a b : String) (ha : a ∈ fc) (hb : b ∈ fc) (hab : a ≠ b) :
    ∃ la lb, (criterion_short_map fc).lookup a = some la ∧
      (criterion_short_map fc).lookup b = some lb ∧ la ≠ lb := by
  rcases List.getElem_of_mem ha with ⟨i, hi, rfl⟩
  rcases List.getElem_of_mem hb with ⟨j, hj, rfl⟩
  refine ⟨shortLabel i fc[i], shortLabel j fc[j],
    lookup_criterion_short_map hnd hi, lookup_criterion_short_map hnd hj, ?_⟩
  intro heq
  have hij := shortLabel_index_inj heq
  subst hij
  exact hab rfl

/-- Two 61-character column names sharing their first 60 characters. -/
def nameA : String :=
  "aaaaaaaaaaaaaaaaaaaaaaaaaaaaaaaaaaaaaaaaaaaaaaaaaaaaaaaaaaaab"

def nameB : String :=
  "aaaaaaaaaaaaaaaaaaaaaaaaaaaaaaaaaaaaaaaaaaaaaaaaaaaaaaaaaaaac"

theorem claim_C10_witness :
    ∃ la lb, (criterion_short_map [nameA, nameB]).lookup nameA = some la ∧
      (criterion_short_map [nameA, nameB]).lookup nameB = some lb ∧
      la ≠ lb :=
  claim_C10_label_map_injective [nameA, nameB] (by decide) nameA nameB
    (by decide) (by decide) (by decide)

end FeedbackApp
